import Mathlib

/-!
Shallow embedding of the constraint layer of a finite-domain CSP solver
(`constraints.py`): the generic support-search engine `findvals`/`findvals_`
and the family of constraint kinds built on it (table, queens, queens-table,
not-equal, all-different, counting-range, exact-cover), together with proofs
of the spec's testable properties.

Values are modelled as `Int` (Python ints).  A `Var` records the fields of
the external variable contract that the constraint layer reads: the full
domain, the current (pruned) domain and the assignment state; the `id` field
models Python object identity.  The Python lists that `findvals_` mutates in
place (`remainingVars`, `assignment`) are modelled by explicit state passing:
`findvalsS` returns, besides the boolean result, the contents the two lists
hold at the moment the call returns.
-/

structure Var where
  id : Nat
  domain : List Int
  curDomain : List Int
  assigned : Option Int
deriving DecidableEq

/-- `curDomainSize()` of the variable contract. -/
def Var.curDomainSize (v : Var) : Nat := v.curDomain.length

/-- `inCurDomain(value)` of the variable contract. -/
def Var.inCurDomain (v : Var) (x : Int) : Bool := x ∈ v.curDomain

/-- `isAssigned()` of the variable contract. -/
def Var.isAssigned (v : Var) : Bool := v.assigned.isSome

/-- `getValue()` of the variable contract (only meaningful when assigned). -/
def Var.getValue (v : Var) : Int := v.assigned.getD 0

abbrev Assignment := List (Var × Int)

/-- The `for val in var.curDomain()` loop body of `findvals_`, with the
in-place mutation of the two Python lists made explicit: `rec` is the
recursive call at one less fuel, `vsCur`/`aCur` are the current contents of
`remainingVars` (after the `pop()` of `var`) and `assignment`; the loop
threads through whatever contents a recursive call leaves in the lists, and
`assignment.pop()` is `List.dropLast`.  When the loop exhausts the values it
re-appends `var` (`remainingVars.append(var)`) and returns `False`. -/
def fvLoopS (p : Assignment → Bool)
    (rec : List Var → Assignment → Bool × List Var × Assignment) (var : Var) :
    List Int → List Var → Assignment → Bool × List Var × Assignment
  | [], vsCur, aCur => (false, vsCur ++ [var], aCur)
  | x :: rest, vsCur, aCur =>
    if p (aCur ++ [(var, x)]) then
      if (rec vsCur (aCur ++ [(var, x)])).1 then
        (true, (rec vsCur (aCur ++ [(var, x)])).2)
      else
        fvLoopS p rec var rest (rec vsCur (aCur ++ [(var, x)])).2.1
          ((rec vsCur (aCur ++ [(var, x)])).2.2.dropLast)
    else
      fvLoopS p rec var rest vsCur ((aCur ++ [(var, x)]).dropLast)

/-- `findvals_` with the list mutation made explicit (state passing) and a
fuel argument making the recursion structural: the result is the returned
boolean together with the contents of `remainingVars` and `assignment` when
the call returns.  `remainingVars.pop()` takes the last element
(`getLast?`/`dropLast`).  Any fuel exceeding `remainingVars.length` is
enough (see `findvalsS_fst_eq`). -/
def findvalsS (f p : Assignment → Bool) :
    Nat → List Var → Assignment → Bool × List Var × Assignment
  | 0, vs, a => (false, vs, a)
  | n + 1, vs, a =>
    match vs.getLast? with
    | none => (f a, vs, a)
    | some var => fvLoopS p (findvalsS f p n) var var.curDomain vs.dropLast a

/-- `findvals_(remainingVars, assignment, finalTestfn, partialTestfn)`:
boolean result plus the contents of the two mutated lists at return. -/
def findvals_ (vs : List Var) (a : Assignment) (f p : Assignment → Bool) :
    Bool × List Var × Assignment :=
  findvalsS f p (vs.length + 1) vs a

/-- `remainingVars.sort(reverse=True, key=lambda v: v.curDomainSize())`:
stable sort by descending current-domain size. -/
def sortDesc (l : List Var) : List Var :=
  l.insertionSort (fun u v => v.curDomainSize ≤ u.curDomainSize)

/-- `findvals(remainingVars, assignment, finalTestfn, partialTestfn)`: sorts
`remainingVars` in place by descending current-domain size, then runs
`findvals_`.  The first component is the boolean Python returns. -/
def findvals (rs : List Var) (a : Assignment) (f p : Assignment → Bool) :
    Bool × List Var × Assignment :=
  findvals_ (sortDesc rs) a f p

/-- Pure functional version of `findvals_`, consuming the variables from the
head of the list (i.e. on the reverse of the Python list, which is popped
from its end).  `findvalsS_fst_eq` proves it computes the same boolean. -/
def findvalsAux (f p : Assignment → Bool) : List Var → Assignment → Bool
  | [], a => f a
  | v :: vs, a =>
    v.curDomain.any fun x =>
      p (a ++ [(v, x)]) && findvalsAux f p vs (a ++ [(v, x)])

/-- `TableConstraint.hasSupport(var, val)`:  tuple scan, skipping tuples
whose value at `var`'s index differs from `val`, checking every other
position's value for membership in that variable's current domain.
Out-of-range tuple access (malformed tuples, the model-builder's
responsibility per the spec) is modelled by `getD`. -/
def TableConstraint.hasSupport (scope : List Var) (sat : List (List Int))
    (var : Var) (val : Int) : Bool :=
  if var ∉ scope then true
  else
    let vindex := scope.indexOf var
    sat.any fun asg =>
      asg.getD vindex 0 == val &&
      scope.enum.all fun iv =>
        iv.1 == vindex || iv.2.inCurDomain (asg.getD iv.1 0)

/-- `QueensConstraint.queensCheck(vali, valj)` for row indices `i`, `j`. -/
def queensCheck (i j vali valj : Int) : Bool :=
  let diag := (vali - valj).natAbs == (i - j).natAbs
  !diag && !(vali == valj)

/-- `QueensConstraint.hasSupport(var, val)`; the constructor sets
`scope = [qi, qj]`. -/
def QueensConstraint.hasSupport (qi qj : Var) (i j : Int) (var : Var)
    (val : Int) : Bool :=
  if var ∉ [qi, qj] then true
  else
    let otherVar := if qi = var then qj else qi
    otherVar.curDomain.any fun otherVal => queensCheck i j val otherVal

/-- `QueensTableConstraint.satisfyingAssignments(qi, qj, i, j)`: the nested
loops over the two full domains, keeping `[col_i, col_j]` whenever
`col_i != col_j and abs(i - j) != abs(col_i - col_j)`. -/
def QueensTableConstraint.satisfyingAssignments (qiDom qjDom : List Int)
    (i j : Int) : List (List Int) :=
  qiDom.flatMap fun col_i =>
    (qjDom.filter fun col_j =>
        col_i != col_j && (i - j).natAbs != (col_i - col_j).natAbs).map
      fun col_j => [col_i, col_j]

/-- State recorded by `Constraint.__init__` (in `csp.py`, not under `src/`).
Modelled from the spec: construction records the name and the ordered scope;
the returned object is usable afterwards. -/
structure NeqConstraintObj where
  name : String
  scope : List Var
deriving DecidableEq

/-- `NeqConstraint.__init__(name, scope)`: when `len(scope) != 2` it prints
an error message (modelled as the first component, the list of messages
printed) and then constructs the object anyway. -/
def NeqConstraint.init (name : String) (scope : List Var) :
    List String × NeqConstraintObj :=
  (if scope.length ≠ 2 then
      ["Error Neq Constraints are only between two variables"]
    else [],
   { name := "NeqCnstr_" ++ name, scope := scope })

/-- `NeqConstraint.hasSupport(var, val)`. -/
def NeqConstraint.hasSupport (scope : List Var) (var : Var) (val : Int) :
    Bool :=
  if var ∉ scope then true
  else
    let otherVar :=
      if scope.getD 0 ⟨0, [], [], none⟩ = var then scope.getD 1 ⟨0, [], [], none⟩
      else scope.getD 0 ⟨0, [], [], none⟩
    otherVar.curDomain.any fun otherVal => val != otherVal

/-- `valsNotEqual(l)` of `AllDiffConstraint.hasSupport`: the values of the
pairs are pairwise distinct (`len(set(vals)) == len(vals)`, set size being
`dedup` length). -/
def valsNotEqual (l : Assignment) : Bool :=
  let vals := l.map fun pr => pr.2
  vals.dedup.length == vals.length

/-- `AllDiffConstraint.hasSupport(var, val)`: removes `var` from a scratch
copy of the scope and runs `findvals` with `valsNotEqual` as both the final
and the partial test. -/
def AllDiffConstraint.hasSupport (scope : List Var) (var : Var) (val : Int) :
    Bool :=
  if var ∉ scope then true
  else (findvals (scope.erase var) [(var, val)] valsNotEqual valsNotEqual).1

/-- The counting loop shared by `NValuesConstraint`'s two predicates: the
number of pairs whose value lies in the required set. -/
def requiredCount (required : List Int) : Assignment → Nat
  | [] => 0
  | pr :: rest => (if pr.2 ∈ required then 1 else 0) + requiredCount required rest

/-- `satisfying_lb_ub(l)` of `NValuesConstraint.hasSupport`: the required
count lies within `[lower_bound, upper_bound]`. -/
def satisfying_lb_ub (required : List Int) (lb ub : Int) (l : Assignment) :
    Bool :=
  decide (lb ≤ (requiredCount required l : Int) ∧
    (requiredCount required l : Int) ≤ ub)

/-- `satisfying_ub(l)` of `NValuesConstraint.hasSupport`: the required count
is at most `upper_bound`. -/
def satisfying_ub (required : List Int) (ub : Int) (l : Assignment) : Bool :=
  decide ((requiredCount required l : Int) ≤ ub)

/-- `NValuesConstraint.hasSupport(var, val)`. -/
def NValuesConstraint.hasSupport (scope : List Var) (required : List Int)
    (lb ub : Int) (var : Var) (val : Int) : Bool :=
  if var ∉ scope then true
  else
    (findvals (scope.erase var) [(var, val)] (satisfying_lb_ub required lb ub)
      (satisfying_ub required ub)).1

/-- The core of `coverAllFlight.check` once all scope variables are known to
be assigned, operating on the list of assigned values: the `flights` dict
maps each distinct non-sentinel (non-`0`) value to its number of
occurrences; the check fails when `len(flights) < len(set(values))` or some
count exceeds `1`. -/
def coverCheckVals (assigned values : List Int) : Bool :=
  let nz := assigned.filter fun x => !(x == 0)
  let flights := nz.dedup
  if flights.length < values.dedup.length then false
  else flights.all fun f => nz.count f ≤ 1

/-- The scope traversal of `coverAllFlight.check` (and of the other `check`
methods): collect the assigned values in scope order, `none` when some
variable is unassigned (Python returns `True` early there). -/
def collectAssigned : List Var → Option (List Int)
  | [] => some []
  | v :: rest =>
    match v.assigned with
    | none => none
    | some x => (collectAssigned rest).map fun xs => x :: xs

/-- `coverAllFlight.check()`. -/
def coverAllFlight.check (scope : List Var) (values : List Int) : Bool :=
  match collectAssigned scope with
  | none => true
  | some vals => coverCheckVals vals values

/-- `cover_all_flights(l)` of `coverAllFlight.hasSupport`: the final test,
same counting logic as `check` but over the values of the assignment
pairs. -/
def cover_all_flights (values : List Int) (l : Assignment) : Bool :=
  let nz := (l.map fun pr => pr.2).filter fun x => !(x == 0)
  let diff_flight := nz.dedup
  if diff_flight.length < values.dedup.length then false
  else diff_flight.all fun f => nz.count f ≤ 1

/-- `could_cover_all(l)` of `coverAllFlight.hasSupport`: the partial test,
`len(set(self._scope)) >= len(set(self._values))`, constant in `l`. -/
def could_cover_all (scope : List Var) (values : List Int) (_l : Assignment) :
    Bool :=
  values.dedup.length ≤ scope.dedup.length

/-- `coverAllFlight.hasSupport(var, val)`. -/
def coverAllFlight.hasSupport (scope : List Var) (values : List Int)
    (var : Var) (val : Int) : Bool :=
  if var ∉ scope then true
  else
    (findvals (scope.erase var) [(var, val)] (cover_all_flights values)
      (could_cover_all scope values)).1

/-! ### Engine lemmas -/

theorem findvalsS_nil (f p : Assignment → Bool) (n : Nat) (a : Assignment) :
    findvalsS f p (n + 1) [] a = (f a, [], a) := rfl

theorem findvalsS_concat (f p : Assignment → Bool) (n : Nat) (L : List Var)
    (b : Var) (a : Assignment) :
    findvalsS f p (n + 1) (L ++ [b]) a =
      fvLoopS p (findvalsS f p n) b b.curDomain L a := by
  simp only [findvalsS, List.getLast?_concat, List.dropLast_concat]

/-- `findvals_` undoes all list mutation on every failing return: whenever the
boolean result is `false`, the returned list contents equal the arguments. -/
theorem findvalsS_restore (f p : Assignment → Bool) :
    ∀ (n : Nat) (vs : List Var) (a : Assignment),
      (findvalsS f p n vs a).1 = false → (findvalsS f p n vs a).2 = (vs, a) := by
  intro n
  induction n with
  | zero => intro vs a _; rfl
  | succ n ih =>
    intro vs a
    rcases List.eq_nil_or_concat vs with rfl | ⟨L, b, rfl⟩
    · intro _; rfl
    · rw [List.concat_eq_append, findvalsS_concat]
      have loop : ∀ (valList : List Int) (vsC : List Var) (aC : Assignment),
          (fvLoopS p (findvalsS f p n) b valList vsC aC).1 = false →
          (fvLoopS p (findvalsS f p n) b valList vsC aC).2 = (vsC ++ [b], aC) := by
        intro valList
        induction valList with
        | nil => intro vsC aC _; rfl
        | cons x rest ihl =>
          intro vsC aC h
          simp only [fvLoopS] at h ⊢
          by_cases hp : p (aC ++ [(b, x)]) = true
          · rw [if_pos hp] at h ⊢
            by_cases hr : (findvalsS f p n vsC (aC ++ [(b, x)])).1 = true
            · rw [if_pos hr] at h; simp at h
            · rw [if_neg hr] at h ⊢
              have hrest := ih vsC (aC ++ [(b, x)])
                (Bool.eq_false_iff.mpr hr)
              rw [hrest] at h ⊢
              rw [List.dropLast_concat] at h ⊢
              exact ihl vsC aC h
          · rw [if_neg hp] at h ⊢
            rw [List.dropLast_concat] at h ⊢
            exact ihl vsC aC h
      exact loop b.curDomain L a

/-- With enough fuel, the boolean computed by the state-passing engine agrees
with the pure recursion `findvalsAux` run on the reversed list. -/
theorem findvalsS_fst_eq (f p : Assignment → Bool) :
    ∀ (n : Nat) (vs : List Var) (a : Assignment), vs.length < n →
      (findvalsS f p n vs a).1 = findvalsAux f p vs.reverse a := by
  intro n
  induction n with
  | zero => intro vs a h; exact absurd h (Nat.not_lt_zero _)
  | succ n ih =>
    intro vs a hlen
    rcases List.eq_nil_or_concat vs with rfl | ⟨L, b, rfl⟩
    · rfl
    · rw [List.concat_eq_append] at hlen ⊢
      have hL : L.length < n := by
        simpa [Nat.succ_lt_succ_iff] using hlen
      rw [findvalsS_concat, List.reverse_concat]
      have loop : ∀ (valList : List Int) (aC : Assignment),
          (fvLoopS p (findvalsS f p n) b valList L aC).1 =
          valList.any fun x =>
            p (aC ++ [(b, x)]) && findvalsAux f p L.reverse (aC ++ [(b, x)]) := by
        intro valList
        induction valList with
        | nil => intro aC; rfl
        | cons x rest ihl =>
          intro aC
          simp only [fvLoopS, List.any_cons]
          by_cases hp : p (aC ++ [(b, x)]) = true
          · rw [if_pos hp, hp, Bool.true_and]
            by_cases hr : (findvalsS f p n L (aC ++ [(b, x)])).1 = true
            · rw [if_pos hr]
              rw [ih L (aC ++ [(b, x)]) hL] at hr
              rw [hr, Bool.true_or]
            · rw [if_neg hr]
              have hrest := findvalsS_restore f p n L (aC ++ [(b, x)])
                (Bool.eq_false_iff.mpr hr)
              rw [hrest, List.dropLast_concat, ihl aC]
              rw [ih L (aC ++ [(b, x)]) hL] at hr
              rw [Bool.eq_false_iff.mpr hr, Bool.false_or]
          · rw [if_neg hp, Bool.eq_false_iff.mpr hp, Bool.false_and, Bool.false_or]
            rw [List.dropLast_concat]
            exact ihl aC
      exact loop b.curDomain a

/-- Correctness of the pure recursion: provided the partial test fails only
on partial assignments no completion of which passes the final test, the
search succeeds exactly when some row of current-domain values passes the
final test. -/
theorem findvalsAux_iff (f p : Assignment → Bool)
    (hp : ∀ (l ext : Assignment), p l = false → f (l ++ ext) = false) :
    ∀ (vs : List Var) (a : Assignment),
      findvalsAux f p vs a = true ↔
        ∃ vals : List Int,
          List.Forall₂ (fun v x => x ∈ v.curDomain) vs vals ∧
          f (a ++ vs.zip vals) = true := by
  intro vs
  induction vs with
  | nil =>
    intro a
    simp [findvalsAux, List.forall₂_nil_left_iff]
  | cons v vs ih =>
    intro a
    constructor
    · intro h
      rcases List.any_eq_true.mp h with ⟨x, hx, hcond⟩
      rw [Bool.and_eq_true] at hcond
      rcases (ih _).mp hcond.2 with ⟨vals, hf, hcomp⟩
      refine ⟨x :: vals, List.forall₂_cons.mpr ⟨hx, hf⟩, ?_⟩
      simpa [List.append_assoc] using hcomp
    · rintro ⟨vals, hf, hcomp⟩
      cases vals with
      | nil => exact absurd hf (by simp)
      | cons y ys =>
        rcases List.forall₂_cons.mp hf with ⟨hy, hf2⟩
        have hcomp2 : f ((a ++ [(v, y)]) ++ vs.zip ys) = true := by
          simpa [List.append_assoc] using hcomp
        have hpy : p (a ++ [(v, y)]) = true := by
          by_contra hc
          rw [hp _ _ (Bool.eq_false_iff.mpr hc)] at hcomp2
          exact Bool.false_ne_true hcomp2
        refine List.any_eq_true.mpr ⟨y, hy, ?_⟩
        rw [Bool.and_eq_true]
        exact ⟨hpy, (ih _).mpr ⟨ys, hf2, hcomp2⟩⟩

/-- A `Forall₂` relation supplies a related value for every left element. -/
theorem forall₂_exists_of_mem {R : Var → Int → Prop} :
    ∀ {l₁ : List Var} {l₂ : List Int}, List.Forall₂ R l₁ l₂ →
      ∀ v ∈ l₁, ∃ x, R v x := by
  intro l₁ l₂ h
  induction h with
  | nil => intro v hv; exact absurd hv (List.not_mem_nil v)
  | cons hr _ ihr =>
    intro v hv
    rcases List.mem_cons.mp hv with rfl | hv2
    · exact ⟨_, hr⟩
    · exact ihr v hv2

theorem sortDesc_sorted (l : List Var) :
    List.Pairwise (fun u v => v.curDomainSize ≤ u.curDomainSize) (sortDesc l) := by
  have ht : IsTotal Var fun u v => v.curDomainSize ≤ u.curDomainSize :=
    ⟨fun a b => Nat.le_total _ _⟩
  have htr : IsTrans Var fun u v => v.curDomainSize ≤ u.curDomainSize :=
    ⟨fun a b c hab hbc => Nat.le_trans hbc hab⟩
  exact @List.sorted_insertionSort Var _ _ ht htr l

theorem sortDesc_perm (l : List Var) : (sortDesc l).Perm l :=
  List.perm_insertionSort _ l

/-- C7: the search engine branches on variables in ascending order of
current-domain size: the order in which `findvals` hands variables to the
recursion (the reverse of the descending sort, since `findvals_` pops from
the end) is sorted by ascending current-domain size, so at every recursion
step the variable next given a value has the smallest current domain among
the variables still remaining. -/
theorem C7_fail_first_order (rs : List Var) :
    List.Pairwise (fun u v => u.curDomainSize ≤ v.curDomainSize)
      (sortDesc rs).reverse ∧
    ∀ (a : Assignment) (f p : Assignment → Bool),
      (findvals rs a f p).1 = findvalsAux f p (sortDesc rs).reverse a := by
  constructor
  · rw [List.pairwise_reverse]
    exact sortDesc_sorted rs
  · intro a f p
    have h := findvalsS_fst_eq f p ((sortDesc rs).length + 1) (sortDesc rs) a
      (Nat.lt_succ_self _)
    exact h

/-- C1: provided `partialTest` returns `false` only on partial assignments
no completion of which can satisfy `finalTest`, `findvals` returns `true`
iff some complete assignment extending the seed, drawing every remaining
variable's value from its current domain, satisfies `finalTest`; in
particular a variable with an empty current domain forces `false`. -/
theorem C1_findvals_correct (rs : List Var) (a : Assignment)
    (f p : Assignment → Bool)
    (hp : ∀ (l ext : Assignment), p l = false → f (l ++ ext) = false) :
    ((findvals rs a f p).1 = true ↔
      ∃ vals : List Int,
        List.Forall₂ (fun v x => x ∈ v.curDomain) (sortDesc rs).reverse vals ∧
        f (a ++ ((sortDesc rs).reverse).zip vals) = true) ∧
    ((∃ v ∈ rs, v.curDomain = []) → (findvals rs a f p).1 = false) := by
  have hb : (findvals rs a f p).1 = findvalsAux f p (sortDesc rs).reverse a :=
    findvalsS_fst_eq f p ((sortDesc rs).length + 1) (sortDesc rs) a
      (Nat.lt_succ_self _)
  constructor
  · rw [hb]
    exact findvalsAux_iff f p hp _ a
  · rintro ⟨v, hv, hemp⟩
    cases hbv : (findvals rs a f p).1 with
    | false => rfl
    | true =>
      rw [hb] at hbv
      rcases (findvalsAux_iff f p hp _ a).mp hbv with ⟨vals, hf, _⟩
      have hv2 : v ∈ (sortDesc rs).reverse := by
        rw [List.mem_reverse]
        exact ((sortDesc_perm rs).mem_iff).mpr hv
      rcases forall₂_exists_of_mem hf v hv2 with ⟨x, hx⟩
      rw [hemp] at hx
      exact absurd hx (List.not_mem_nil x)

theorem C1_findvals_correct_witness :
    (findvals [⟨1, [], [], none⟩] [] (fun _ => true) (fun _ => true)).1 = false :=
  (C1_findvals_correct [⟨1, [], [], none⟩] [] (fun _ => true) (fun _ => true)
      (fun _ _ h => Bool.noConfusion h)).2
    ⟨⟨1, [], [], none⟩, List.mem_singleton.mpr rfl, rfl⟩

/-- C3 counterexample: a successful `findvals_` call does NOT restore the
two lists: entered with `remainingVars = [v]` and `assignment = []`, it
returns `true` leaving the assignment list non-empty (and the variable
popped), so scratch mutation is not undone on the success path. -/
theorem C3_counterexample :
    (findvals_ [⟨1, [1], [1], none⟩] [] (fun _ => true) (fun _ => true)).1 =
      true ∧
    (findvals_ [⟨1, [1], [1], none⟩] [] (fun _ => true) (fun _ => true)).2.2 ≠
      [] := by
  constructor
  · rfl
  · decide

/-- C3 (amended): on every FAILING return, `findvals_` has fully undone its
scratch mutation — the two lists hold exactly their entry contents; a
failing top-level `findvals` call restores the assignment list and leaves
`remainingVars` holding the same entries re-sorted (the in-place sort is the
one mutation that persists past a failing call). -/
theorem C3_restore_on_failure (vs rs : List Var) (a : Assignment)
    (f p : Assignment → Bool) :
    ((findvals_ vs a f p).1 = false →
      (findvals_ vs a f p).2.1 = vs ∧ (findvals_ vs a f p).2.2 = a) ∧
    ((findvals rs a f p).1 = false →
      (findvals rs a f p).2.1 = sortDesc rs ∧ (findvals rs a f p).2.2 = a) ∧
    (sortDesc rs).Perm rs := by
  refine ⟨?_, ?_, sortDesc_perm rs⟩
  · intro h
    have h2 := findvalsS_restore f p (vs.length + 1) vs a h
    constructor
    · show (findvalsS f p (vs.length + 1) vs a).2.1 = vs
      rw [h2]
    · show (findvalsS f p (vs.length + 1) vs a).2.2 = a
      rw [h2]
  · intro h
    have h2 := findvalsS_restore f p ((sortDesc rs).length + 1) (sortDesc rs) a h
    constructor
    · show (findvalsS f p ((sortDesc rs).length + 1) (sortDesc rs) a).2.1 =
        sortDesc rs
      rw [h2]
    · show (findvalsS f p ((sortDesc rs).length + 1) (sortDesc rs) a).2.2 = a
      rw [h2]

theorem C3_restore_on_failure_witness :
    (findvals_ [⟨1, [1, 2], [1, 2], none⟩] [] (fun _ => false)
        (fun _ => true)).2.1 = [⟨1, [1, 2], [1, 2], none⟩] ∧
    (findvals_ [⟨1, [1, 2], [1, 2], none⟩] [] (fun _ => false)
        (fun _ => true)).2.2 = [] :=
  (C3_restore_on_failure [⟨1, [1, 2], [1, 2], none⟩] [⟨1, [1, 2], [1, 2], none⟩]
      [] (fun _ => false) (fun _ => true)).1 (by decide)


theorem dedup_length_eq_iff {l : List Int} :
    l.dedup.length = l.length ↔ l.Nodup := by
  constructor
  · intro h
    rw [← List.dedup_eq_self]
    exact (List.dedup_sublist l).eq_of_length h
  · intro h
    rw [List.dedup_eq_self.mpr h]

/-- C5 counterexample: for `i = 0`, `j = 1` and full domains `[1,2,3,4]`, the
derived queens table contains 6 tuples, not the 10 the claim states (16
pairs minus the 4 equal ones minus the 6 adjacent ones). -/
theorem C5_count_counterexample :
    (QueensTableConstraint.satisfyingAssignments [1, 2, 3, 4] [1, 2, 3, 4]
        0 1).length = 6 ∧
    (QueensTableConstraint.satisfyingAssignments [1, 2, 3, 4] [1, 2, 3, 4]
        0 1).length ≠ 10 := by
  constructor <;> decide

/-- C5 (amended): the derived queens table agrees with the closed-form
queens relation: for values drawn from the two full domains, `[a, b]` is a
stored satisfying tuple iff `queensCheck i j a b`, i.e. iff `a ≠ b` and
`|a-b| ≠ |i-j|`; for `i = 0`, `j = 1`, domains `[1,2,3,4]`, the table holds
exactly the 6 such pairs, containing `[1,3]` but not `[1,2]` or `[2,2]`. -/
theorem C5_table_closed_form :
    (∀ (qiDom qjDom : List Int) (i j a b : Int), a ∈ qiDom → b ∈ qjDom →
      ([a, b] ∈ QueensTableConstraint.satisfyingAssignments qiDom qjDom i j ↔
        queensCheck i j a b = true)) ∧
    (QueensTableConstraint.satisfyingAssignments [1, 2, 3, 4] [1, 2, 3, 4]
        0 1).length = 6 ∧
    [1, 3] ∈ QueensTableConstraint.satisfyingAssignments [1, 2, 3, 4]
        [1, 2, 3, 4] 0 1 ∧
    [1, 2] ∉ QueensTableConstraint.satisfyingAssignments [1, 2, 3, 4]
        [1, 2, 3, 4] 0 1 ∧
    [2, 2] ∉ QueensTableConstraint.satisfyingAssignments [1, 2, 3, 4]
        [1, 2, 3, 4] 0 1 := by
  refine ⟨?_, by decide, by decide, by decide, by decide⟩
  intro qiDom qjDom i j a b ha hb
  have key : ∀ x y : Int,
      ((x != y && (i - j).natAbs != (x - y).natAbs) = true) ↔
        queensCheck i j x y = true := by
    intro x y
    simp only [queensCheck, Bool.and_eq_true, bne_iff_ne, ne_eq,
      Bool.not_eq_true', beq_eq_false_iff_ne]
    tauto
  constructor
  · intro h
    rcases List.mem_flatMap.mp h with ⟨ci, _, h2⟩
    rcases List.mem_map.mp h2 with ⟨cj, hcj, heq⟩
    obtain ⟨rfl, rfl⟩ : ci = a ∧ cj = b := by simpa using heq
    rcases List.mem_filter.mp hcj with ⟨_, hcond⟩
    exact (key _ _).mp hcond
  · intro h
    refine List.mem_flatMap.mpr ⟨a, ha, List.mem_map.mpr ⟨b, ?_, rfl⟩⟩
    exact List.mem_filter.mpr ⟨hb, (key a b).mpr h⟩

theorem C5_table_closed_form_witness :
    [1, 3] ∈ QueensTableConstraint.satisfyingAssignments [1, 2, 3, 4]
        [1, 2, 3, 4] 0 1 ↔
      queensCheck 0 1 1 3 = true :=
  C5_table_closed_form.1 [1, 2, 3, 4] [1, 2, 3, 4] 0 1 1 3 (by decide)
    (by decide)

/-- C10: the queens pairwise relation is symmetric, and consequently
`QueensConstraint.hasSupport` — which always passes `val` as the first
argument of `queensCheck` — computes, for either scope position of `var`,
the support check oriented the way the scope orders the pair: for
`var = qi` it scans `qj`'s current domain with `val` in the first position,
and for `var = qj` its result equals the scan of `qi`'s current domain with
`val` in the second position. -/
theorem C10_queens_symmetric (qi qj : Var) (i j val : Int) :
    (∀ a b : Int, queensCheck i j a b = queensCheck i j b a) ∧
    QueensConstraint.hasSupport qi qj i j qi val =
      qj.curDomain.any (fun ov => queensCheck i j val ov) ∧
    QueensConstraint.hasSupport qi qj i j qj val =
      qi.curDomain.any (fun ov => queensCheck i j ov val) := by
  have hsym : ∀ a b : Int, queensCheck i j a b = queensCheck i j b a := by
    intro a b
    simp only [queensCheck]
    have h1 : (a - b).natAbs = (b - a).natAbs := by
      rw [← Int.natAbs_neg, neg_sub]
    have h2 : (a == b) = (b == a) := by
      by_cases h : a = b
      · rw [h]
      · rw [beq_eq_false_iff_ne.mpr h, beq_eq_false_iff_ne.mpr (Ne.symm h)]
    rw [h1, h2]
  refine ⟨hsym, ?_, ?_⟩
  · simp only [QueensConstraint.hasSupport]
    rw [if_neg (not_not_intro (List.mem_cons_self qi [qj]))]
    simp
  · simp only [QueensConstraint.hasSupport]
    rw [if_neg (not_not_intro (by simp : qj ∈ [qi, qj]))]
    by_cases h : qi = qj
    · subst h
      simp only [ite_self]
      exact congrArg _ (funext fun ov => hsym val ov)
    · rw [if_neg h]
      exact congrArg _ (funext fun ov => hsym val ov)

/-- C6: evaluating `NeqConstraint.__init__` at a 1-variable scope: the
constructor emits the error message but still produces the constraint
object carrying the ill-sized scope — construction is not aborted, contrary
to the fail-fast requirement. -/
theorem C6_neq_init_eval :
    (NeqConstraint.init "c" [⟨1, [1], [1], none⟩]).1 =
      ["Error Neq Constraints are only between two variables"] ∧
    (NeqConstraint.init "c" [⟨1, [1], [1], none⟩]).2.scope =
      [⟨1, [1], [1], none⟩] ∧
    ([(⟨1, [1], [1], none⟩ : Var)].length ≠ 2) :=
  ⟨rfl, rfl, by decide⟩

/-- C8: the all-different constraint passes one and the same predicate
`valsNotEqual` to the search engine as both the final and the partial test,
and that predicate is monotone under extension: a partial assignment with a
repeated value stays repeated in every extension, so no extension can
satisfy the constraint. -/
theorem C8_alldiff_monotone :
    (∀ (scope : List Var) (var : Var) (val : Int), var ∈ scope →
      AllDiffConstraint.hasSupport scope var val =
        (findvals (scope.erase var) [(var, val)] valsNotEqual
          valsNotEqual).1) ∧
    (∀ (l ext : Assignment), valsNotEqual l = false →
      valsNotEqual (l ++ ext) = false) := by
  constructor
  · intro scope var val h
    simp only [AllDiffConstraint.hasSupport]
    rw [if_neg (not_not_intro h)]
  · intro l ext h
    cases hc : valsNotEqual (l ++ ext) with
    | false => rfl
    | true =>
      exfalso
      simp only [valsNotEqual, beq_iff_eq, beq_eq_false_iff_ne, ne_eq,
        dedup_length_eq_iff] at hc h
      rw [List.map_append] at hc
      exact h ((List.sublist_append_left _ _).nodup hc)

theorem C8_alldiff_monotone_witness :
    AllDiffConstraint.hasSupport [⟨1, [1], [1], none⟩] ⟨1, [1], [1], none⟩ 1 =
      (findvals ([⟨1, [1], [1], none⟩].erase ⟨1, [1], [1], none⟩)
        [(⟨1, [1], [1], none⟩, 1)] valsNotEqual valsNotEqual).1 ∧
    valsNotEqual ([(⟨1, [1], [1], none⟩, 1), (⟨2, [1], [1], none⟩, 1)] ++
      [(⟨3, [1], [1], none⟩, 2)]) = false :=
  ⟨C8_alldiff_monotone.1 _ _ 1 (by decide),
   C8_alldiff_monotone.2 _ _ (by decide)⟩

/-- C4: the counting-range constraint hands the engine two distinct
predicates: the final test accepts exactly when the required-value count
lies within `[lower_bound, upper_bound]`; the partial test rejects exactly
when the count exceeds `upper_bound` — so a partial assignment already over
the upper bound is pruned, while (the bounds forming a range) one still
below the lower bound is never pruned early. -/
theorem C4_nvalues_asymmetry (required : List Int) (lb ub : Int)
    (l : Assignment) :
    (satisfying_lb_ub required lb ub l = true ↔
      lb ≤ (requiredCount required l : Int) ∧
        (requiredCount required l : Int) ≤ ub) ∧
    (satisfying_ub required ub l = false ↔
      ub < (requiredCount required l : Int)) ∧
    (lb ≤ ub → (requiredCount required l : Int) < lb →
      satisfying_ub required ub l = true) ∧
    (∀ (scope : List Var) (var : Var) (val : Int), var ∈ scope →
      NValuesConstraint.hasSupport scope required lb ub var val =
        (findvals (scope.erase var) [(var, val)]
          (satisfying_lb_ub required lb ub) (satisfying_ub required ub)).1) := by
  refine ⟨?_, ?_, ?_, ?_⟩
  · simp only [satisfying_lb_ub]
    exact decide_eq_true_iff
  · simp only [satisfying_ub]
    rw [decide_eq_false_iff_not]
    exact not_le
  · intro h1 h2
    simp only [satisfying_ub]
    exact decide_eq_true (le_of_lt (lt_of_lt_of_le h2 h1))
  · intro scope var val h
    simp only [NValuesConstraint.hasSupport]
    rw [if_neg (not_not_intro h)]

theorem C4_nvalues_asymmetry_witness :
    satisfying_ub [2, 3] 3 [(⟨1, [1], [1], none⟩, 1)] = true ∧
    NValuesConstraint.hasSupport [⟨1, [1], [1], none⟩] [2, 3] 2 3
        ⟨1, [1], [1], none⟩ 1 =
      (findvals ([⟨1, [1], [1], none⟩].erase ⟨1, [1], [1], none⟩)
        [(⟨1, [1], [1], none⟩, 1)] (satisfying_lb_ub [2, 3] 2 3)
        (satisfying_ub [2, 3] 3)).1 :=
  ⟨(C4_nvalues_asymmetry [2, 3] 2 3 [(⟨1, [1], [1], none⟩, 1)]).2.2.1
      (by decide) (by decide),
   (C4_nvalues_asymmetry [2, 3] 2 3 [(⟨1, [1], [1], none⟩, 1)]).2.2.2 _ _ 1
      (by decide)⟩

/-- C9: every constraint kind grants vacuous support — `hasSupport(var, val)`
returns `true` whenever `var` is not in the constraint's scope, for any
value. -/
theorem C9_vacuous_support :
    (∀ (scope : List Var) (sat : List (List Int)) (var : Var) (val : Int),
      var ∉ scope → TableConstraint.hasSupport scope sat var val = true) ∧
    (∀ (qi qj var : Var) (i j val : Int), var ∉ [qi, qj] →
      QueensConstraint.hasSupport qi qj i j var val = true) ∧
    (∀ (scope : List Var) (var : Var) (val : Int), var ∉ scope →
      NeqConstraint.hasSupport scope var val = true) ∧
    (∀ (scope : List Var) (var : Var) (val : Int), var ∉ scope →
      AllDiffConstraint.hasSupport scope var val = true) ∧
    (∀ (scope : List Var) (required : List Int) (lb ub : Int) (var : Var)
        (val : Int), var ∉ scope →
      NValuesConstraint.hasSupport scope required lb ub var val = true) ∧
    (∀ (scope : List Var) (values : List Int) (var : Var) (val : Int),
      var ∉ scope → coverAllFlight.hasSupport scope values var val = true) := by
  refine ⟨?_, ?_, ?_, ?_, ?_, ?_⟩
  · intro scope sat var val h
    simp only [TableConstraint.hasSupport]
    rw [if_pos h]
  · intro qi qj var i j val h
    simp only [QueensConstraint.hasSupport]
    rw [if_pos h]
  · intro scope var val h
    simp only [NeqConstraint.hasSupport]
    rw [if_pos h]
  · intro scope var val h
    simp only [AllDiffConstraint.hasSupport]
    rw [if_pos h]
  · intro scope required lb ub var val h
    simp only [NValuesConstraint.hasSupport]
    rw [if_pos h]
  · intro scope values var val h
    simp only [coverAllFlight.hasSupport]
    rw [if_pos h]

theorem C9_vacuous_support_witness :
    TableConstraint.hasSupport [⟨1, [1], [1], none⟩] [[1]] ⟨9, [], [], none⟩
        5 = true ∧
    QueensConstraint.hasSupport ⟨1, [1], [1], none⟩ ⟨2, [1], [1], none⟩ 0 1
        ⟨9, [], [], none⟩ 5 = true ∧
    NeqConstraint.hasSupport [⟨1, [1], [1], none⟩] ⟨9, [], [], none⟩ 5 =
      true ∧
    AllDiffConstraint.hasSupport [⟨1, [1], [1], none⟩] ⟨9, [], [], none⟩ 5 =
      true ∧
    NValuesConstraint.hasSupport [⟨1, [1], [1], none⟩] [2, 3] 2 3
        ⟨9, [], [], none⟩ 5 = true ∧
    coverAllFlight.hasSupport [⟨1, [1], [1], none⟩] [5, 6, 7]
        ⟨9, [], [], none⟩ 5 = true :=
  ⟨C9_vacuous_support.1 _ _ _ 5 (by decide),
   C9_vacuous_support.2.1 _ _ _ 0 1 5 (by decide),
   C9_vacuous_support.2.2.1 _ _ 5 (by decide),
   C9_vacuous_support.2.2.2.1 _ _ 5 (by decide),
   C9_vacuous_support.2.2.2.2.1 _ _ 2 3 _ 5 (by decide),
   C9_vacuous_support.2.2.2.2.2 _ _ _ 5 (by decide)⟩

theorem mem_filter_nz_dedup {assigned : List Int} {x : Int} :
    x ∈ (assigned.filter fun y => !(y == 0)).dedup ↔
      x ∈ assigned ∧ x ≠ 0 := by
  simp [List.mem_dedup, List.mem_filter, Bool.not_eq_true', beq_eq_false_iff_ne]

/-- The occurrence count the `flights` dict records for a non-sentinel value
equals the value's count in the full assigned list. -/
theorem count_filter_nz {assigned : List Int} {x : Int} (hx : x ≠ 0) :
    (assigned.filter fun y => !(y == 0)).count x = assigned.count x :=
  List.count_filter (by simpa [Bool.not_eq_true', beq_eq_false_iff_ne] using hx)

/-- The counting core of `coverAllFlight.check`, characterized under the
hypotheses that every non-sentinel assigned value is a target and the
sentinel is not itself a target: the check passes iff every target value
occurs exactly once among the assigned values. -/
theorem coverCheckVals_iff (assigned values : List Int)
    (hsub : ∀ x ∈ assigned, x ≠ 0 → x ∈ values)
    (h0 : (0 : Int) ∉ values) :
    coverCheckVals assigned values = true ↔
      ∀ t ∈ values, assigned.count t = 1 := by
  have hFnodup : ((assigned.filter fun y => !(y == 0)).dedup).Nodup :=
    List.nodup_dedup _
  have hTnodup : (values.dedup).Nodup := List.nodup_dedup _
  have hFT : ∀ x ∈ (assigned.filter fun y => !(y == 0)).dedup,
      x ∈ values.dedup := by
    intro x hx
    rcases mem_filter_nz_dedup.mp hx with ⟨hmem, hne⟩
    exact List.mem_dedup.mpr (hsub x hmem hne)
  constructor
  · intro h t ht
    by_cases hlen : ((assigned.filter fun y => !(y == 0)).dedup).length <
        (values.dedup).length
    · rw [coverCheckVals, if_pos hlen] at h
      exact absurd h (by simp)
    · rw [coverCheckVals, if_neg hlen] at h
      have hsetEq : ((assigned.filter fun y => !(y == 0)).dedup).toFinset =
          (values.dedup).toFinset := by
        apply Finset.eq_of_subset_of_card_le
        · intro x hx
          rw [List.mem_toFinset] at hx ⊢
          exact hFT x hx
        · rw [List.toFinset_card_of_nodup hTnodup,
            List.toFinset_card_of_nodup hFnodup]
          omega
      have htF : t ∈ (assigned.filter fun y => !(y == 0)).dedup := by
        rw [← List.mem_toFinset, hsetEq, List.mem_toFinset]
        exact List.mem_dedup.mpr ht
      rcases mem_filter_nz_dedup.mp htF with ⟨hmem, hne⟩
      have hle := List.all_eq_true.mp h t htF
      rw [decide_eq_true_iff, count_filter_nz hne] at hle
      have hpos : 0 < assigned.count t := List.count_pos_iff.mpr hmem
      omega
  · intro h
    have hTF : ∀ x ∈ values.dedup,
        x ∈ (assigned.filter fun y => !(y == 0)).dedup := by
      intro x hx
      have hxv : x ∈ values := List.mem_dedup.mp hx
      have hne : x ≠ 0 := fun hc => h0 (hc ▸ hxv)
      have hcount := h x hxv
      have hmem : x ∈ assigned := List.count_pos_iff.mp (by omega)
      exact mem_filter_nz_dedup.mpr ⟨hmem, hne⟩
    have hsetEq : ((assigned.filter fun y => !(y == 0)).dedup).toFinset =
        (values.dedup).toFinset := by
      apply Finset.Subset.antisymm
      · intro x hx
        rw [List.mem_toFinset] at hx ⊢
        exact hFT x hx
      · intro x hx
        rw [List.mem_toFinset] at hx ⊢
        exact hTF x hx
    have hleneq : ((assigned.filter fun y => !(y == 0)).dedup).length =
        (values.dedup).length := by
      rw [← List.toFinset_card_of_nodup hFnodup,
        ← List.toFinset_card_of_nodup hTnodup, hsetEq]
    rw [coverCheckVals, if_neg (by omega)]
    refine List.all_eq_true.mpr ?_
    intro x hx
    have hxv : x ∈ values := List.mem_dedup.mp (hFT x hx)
    rcases mem_filter_nz_dedup.mp hx with ⟨_, hne⟩
    rw [decide_eq_true_iff, count_filter_nz hne, h x hxv]

theorem collectAssigned_eq_map (scope : List Var)
    (hall : ∀ v ∈ scope, v.assigned.isSome = true) :
    collectAssigned scope = some (scope.map Var.getValue) := by
  induction scope with
  | nil => rfl
  | cons v rest ihr =>
    have hv := hall v (List.mem_cons_self v rest)
    rcases hx : v.assigned with _ | x
    · rw [hx] at hv
      simp at hv
    · simp only [collectAssigned, hx,
        ihr fun w hw => hall w (List.mem_cons_of_mem v hw)]
      simp [Var.getValue, hx]

/-- C2 counterexample: exact-cover constraint with targets `{5,6,7}` on a
fully assigned scope taking values `[5,6,8]`: the target `7` is taken by no
scope variable, yet `check()` returns `true` — the off-target value `8`
makes the distinct-count comparison pass. -/
theorem C2_cover_check_counterexample :
    coverAllFlight.check
        [⟨1, [5], [5], some 5⟩, ⟨2, [6], [6], some 6⟩, ⟨3, [8], [8], some 8⟩]
        [5, 6, 7] = true ∧
    (∀ v ∈ [(⟨1, [5], [5], some 5⟩ : Var), ⟨2, [6], [6], some 6⟩,
        ⟨3, [8], [8], some 8⟩], v.isAssigned = true) ∧
    (7 : Int) ∈ [(5 : Int), 6, 7] ∧
    (7 : Int) ∉ [(⟨1, [5], [5], some 5⟩ : Var), ⟨2, [6], [6], some 6⟩,
        ⟨3, [8], [8], some 8⟩].map Var.getValue :=
  ⟨by decide, by decide, by decide, by decide⟩

/-- C2 (amended): on a fully assigned scope all of whose non-sentinel
values are drawn from the target set (the sentinel `0` not being a target),
`coverAllFlight.check` returns `false` if a target value is missing or a
non-sentinel value repeats, and `true` exactly when every target value is
taken by exactly one scope variable; the sentinel may repeat freely. -/
theorem C2_cover_check (scope : List Var) (values : List Int)
    (hall : ∀ v ∈ scope, v.assigned.isSome = true)
    (hsub : ∀ x ∈ scope.map Var.getValue, x ≠ 0 → x ∈ values)
    (h0 : (0 : Int) ∉ values) :
    coverAllFlight.check scope values = true ↔
      ∀ t ∈ values, (scope.map Var.getValue).count t = 1 := by
  rw [coverAllFlight.check, collectAssigned_eq_map scope hall]
  exact coverCheckVals_iff _ _ hsub h0

theorem C2_cover_check_witness :
    coverAllFlight.check
        [⟨1, [5], [5], some 5⟩, ⟨2, [0], [0], some 0⟩, ⟨3, [6], [6], some 6⟩,
          ⟨4, [7], [7], some 7⟩] [5, 6, 7] = true :=
  (C2_cover_check _ [5, 6, 7] (by decide) (by decide) (by decide)).mpr
    (by decide)
